import Mathlib

/-!
A verification development for the temporal-access core of the
Aria Gen2 pilot dataset data providers.

The development shallowly embeds:
* the timestamp lookup utility (`find_timestamp_index_by_time_query_option`
  and `find_data_by_timestamp_ns`), modelled from the specification since
  only its tests ship in the repository snapshot;
* the diarization interval queries, modelled from the specification;
* the run-length mask codec, modelled from the specification;
* the heart-rate and hand-object-interaction providers, translated from
  `heart_rate_data_provider.py` and
  `hand_object_interaction_data_provider.py`.

Machine integers are modelled as `Int` (Python integers are unbounded, and
all timestamps fit in int64 in the data contract).
-/

namespace AriaGen2

inductive TimeQueryOptions where
  | BEFORE
  | AFTER
  | CLOSEST
deriving DecidableEq, Repr

/-- Modelled from the spec: the insertion point of `target` in the sorted
list `ts` keeping everything strictly smaller to the left, i.e. Python
`bisect.bisect_left`.  On a sorted list this equals the number of elements
strictly below `target`, which is how we express the result of the binary
search. -/

def bisect_left (ts : List Int) (target : Int) : Nat :=
  ts.countP (fun x => decide (x < target))

/-- Modelled from the spec: the insertion point of `target` in the sorted
list `ts` keeping everything `≤ target` to the left, i.e. Python
`bisect.bisect_right`. -/

def bisect_right (ts : List Int) (target : Int) : Nat :=
  ts.countP (fun x => decide (x ≤ target))

/-- Modelled from the spec: `find_timestamp_index_by_time_query_option`
from `utils.py` (absent from the snapshot; its unit tests ship in
`test_utils.py`).  BEFORE returns the greatest index with `ts[i] ≤ target`,
AFTER the smallest index with `ts[i] ≥ target`, CLOSEST the index
minimizing the absolute distance with the earlier index winning ties,
each implemented by a binary search plus a constant number of neighbour
comparisons.  `none` models the Python return value `-1`. -/

def find_timestamp_index_by_time_query_option
    (ts : List Int) (target : Int) : TimeQueryOptions → Option Nat
  | .BEFORE =>
      let i := bisect_right ts target
      if i = 0 then none else some (i - 1)
  | .AFTER =>
      let i := bisect_left ts target
      if i = ts.length then none else some i
  | .CLOSEST =>
      if ts.length = 0 then none
      else
        let i := bisect_left ts target
        if i = 0 then some 0
        else if i = ts.length then some (ts.length - 1)
        else if target - ts.getD (i - 1) 0 ≤ ts.getD i 0 - target then
          some (i - 1)
        else some i

/-- Modelled from the spec: `find_data_by_timestamp_ns` from `utils.py`:
locate the timestamp index for the chosen policy and return the payload
stored there, `none` when the lookup failed. -/

def find_data_by_timestamp_ns {α : Type} (dataList : List (Int × α))
    (timestamp_ns : Int) (opt : TimeQueryOptions) : Option α :=
  match find_timestamp_index_by_time_query_option
      (dataList.map Prod.fst) timestamp_ns opt with
  | none => none
  | some i => (dataList.get? i).map Prod.snd

structure DiarizationData where
  start_timestamp_ns : Int
  end_timestamp_ns : Int
  speaker : String
  content : String
deriving DecidableEq, Repr

/-- Ascending order on segment start timestamps, the order the interval
index keeps its segments in. -/

def startLE (a b : DiarizationData) : Prop :=
  a.start_timestamp_ns ≤ b.start_timestamp_ns

instance : DecidableRel startLE := fun a b =>
  inferInstanceAs (Decidable (a.start_timestamp_ns ≤ b.start_timestamp_ns))

instance : IsTotal DiarizationData startLE :=
  ⟨fun a b => Int.le_total a.start_timestamp_ns b.start_timestamp_ns⟩

instance : IsTrans DiarizationData startLE :=
  ⟨fun _ _ _ h1 h2 => le_trans h1 h2⟩

/-- Modelled from the spec: `DiarizationDataProvider` construction (the
provider module is absent from the snapshot; its tests ship in
`test_diarization_data_provider.py`).  The parsed rows are sorted by start
timestamp ascending with a stable sort, modelled by insertion sort. -/

def build_diarization_data (rows : List DiarizationData) : List DiarizationData :=
  rows.insertionSort startLE

/-- Modelled from the spec: `get_diarization_data_by_timestamp_ns` returns
every stored segment whose closed interval contains `t`, both bounds
inclusive, in storage (start-ascending) order. -/

def get_diarization_data_by_timestamp_ns
    (data : List DiarizationData) (t : Int) : List DiarizationData :=
  data.filter (fun s =>
    decide (s.start_timestamp_ns ≤ t ∧ t ≤ s.end_timestamp_ns))

/-- Modelled from the spec: `get_diarization_data_by_start_and_end_timestamps`
returns every stored segment overlapping `[qStart, qEnd]` under the rule
`start ≤ qEnd ∧ qStart ≤ end`; an inverted range resolves silently to the
empty list. -/

def get_diarization_data_by_start_and_end_timestamps
    (data : List DiarizationData) (qStart qEnd : Int) : List DiarizationData :=
  if qEnd < qStart then []
  else
    data.filter (fun s =>
      decide (s.start_timestamp_ns ≤ qEnd ∧ qStart ≤ s.end_timestamp_ns))

/-- C3: the point query over a built interval index returns exactly the
input segments whose closed interval contains `t` (so a zero-duration
segment matches only at its single instant), in ascending start order. -/

def rle : List Bool → List (Bool × Nat)
  | [] => []
  | x :: xs =>
      match rle xs with
      | [] => [(x, 1)]
      | (y, n) :: rest =>
          if x = y then (y, n + 1) :: rest else (x, 1) :: (y, n) :: rest

/-- Convert value-tagged runs into the alternating count form whose first
count always describes a run of value `b` (the background), inserting an
explicit zero-length run whenever the next run carries the opposite
value. -/

def toAlternating (b : Bool) : List (Bool × Nat) → List Nat
  | [] => []
  | (c, n) :: rest =>
      if c = b then n :: toAlternating (!b) rest
      else 0 :: n :: toAlternating b rest

/-- Expand alternating counts into the flat boolean sequence, the first
count describing a run of value `b`. -/

def expandRuns (b : Bool) : List Nat → List Bool
  | [] => []
  | n :: rest => List.replicate n b ++ expandRuns (!b) rest

/-- Cut a flat column-major sequence into `W` columns of `H` entries. -/

def chunkColumns (H : Nat) : Nat → List Bool → List (List Bool)
  | 0, _ => []
  | W + 1, flat => flat.take H :: chunkColumns H W (flat.drop H)

/-- Modelled from the spec: `MaskCodec.Decode` on the explicit alternating
count form (the packed-byte form is unpacked into this form first and is
not needed here): reject counts not summing to `H * W`, expand them
column-major starting with a background run, and cut into `W` columns.
`none` models DecodeError; the grid is the list of `W` columns, each of
height `H`. -/

def mask_decode (H W : Nat) (counts : List Nat) : Option (List (List Bool)) :=
  if counts.sum = H * W then some (chunkColumns H W (expandRuns false counts))
  else none

/-- Modelled from the spec: `MaskCodec.Encode`: flatten the grid
column-major and emit the alternating run lengths, background first. -/

def mask_encode (grid : List (List Bool)) : List Nat :=
  toAlternating false (rle grid.join)

/-- Expanding the alternating form of the run-length encoding of any
boolean sequence reproduces the sequence, for either background value. -/

structure HeartRateData where
  timestamp_ns : Int
  heart_rate_bpm : Int
deriving DecidableEq, Repr

/-- Ascending order on the timestamp key of a keyed entry, the sort key
`lambda x: x[0]` used by `_load_data`. -/

def keyLE {α : Type} (a b : Int × α) : Prop := a.1 ≤ b.1

instance {α : Type} : DecidableRel (@keyLE α) := fun a b =>
  inferInstanceAs (Decidable (a.1 ≤ b.1))

instance {α : Type} : IsTotal (Int × α) keyLE :=
  ⟨fun a b => Int.le_total a.1 b.1⟩

instance {α : Type} : IsTrans (Int × α) keyLE :=
  ⟨fun _ _ _ h1 h2 => le_trans h1 h2⟩

/-- `all(lst[i][0] < lst[i + 1][0] for i in range(len(lst) - 1))` from
`heart_rate_data_provider._load_data`: every adjacent key pair is strictly
increasing. -/

def strictlyIncreasingKeys {α : Type} : List (Int × α) → Bool
  | a :: b :: rest => decide (a.1 < b.1) && strictlyIncreasingKeys (b :: rest)
  | _ => true

/-- The duplicate scan of `_load_data`: each key equal to its successor
key in the sorted list, kept in order of appearance. -/

def adjacentDuplicates {α : Type} : List (Int × α) → List Int
  | a :: b :: rest =>
      (if a.1 = b.1 then [a.1] else []) ++ adjacentDuplicates (b :: rest)
  | _ => []

/-- `HeartRateDataProvider._load_data` after CSV parsing: keep the rows as
given when empty or already strictly increasing by timestamp; otherwise
sort stably by timestamp and fail with the list of adjacent duplicate
timestamps when any key repeats.  `Except.error` models the raised
`ValueError` carrying the duplicate list. -/

def load_heart_rate_data {α : Type} (rows : List (Int × α)) :
    Except (List Int) (List (Int × α)) :=
  if rows.isEmpty then .ok rows
  else if strictlyIncreasingKeys rows then .ok rows
  else
    let sorted := rows.insertionSort keyLE
    let dups := adjacentDuplicates sorted
    if dups.isEmpty then .ok sorted else .error dups

/-- `HeartRateDataProvider.get_heart_rate_by_index`: the stored payload at
`index` when `0 <= index < len(...)`, `None` otherwise. -/

def get_heart_rate_by_index (dataList : List (Int × HeartRateData))
    (index : Int) : Option HeartRateData :=
  if 0 ≤ index ∧ index < dataList.length then
    (dataList.get? index.toNat).map Prod.snd
  else none

/-- Adjacent strict increase of the keys implies pairwise strict
increase of the keyed entries. -/

structure HandObjectInteractionDataRaw where
  timestamp_ns : Int
  original_image_id : Int
  category_id : Int
  bbox : List Rat
  segmentation_size : List Int
  segmentation_counts : String
  score : Rat
deriving DecidableEq

/-- One COCO-format annotation parsed from
`hand_object_interaction_results.json`.  `segmentation` is `none` when the
entry is not a dict carrying `size` and `counts` keys (the shape
`_load_data` validates). -/

structure HoiAnnotation where
  image_id : Int
  category_id : Int
  bbox : List Rat
  score : Rat
  segmentation : Option (List Int × String)
deriving DecidableEq

/-- The record built from one annotation;
`timestamp_ns = int(original_image_id * 1e6)`, exact for the image ids in
the data. -/

def rawOfAnnot (a : HoiAnnotation) : HandObjectInteractionDataRaw :=
  { timestamp_ns := a.image_id * 1000000
    original_image_id := a.image_id
    category_id := a.category_id
    bbox := a.bbox
    segmentation_size := (a.segmentation.getD ([], "")).1
    segmentation_counts := (a.segmentation.getD ([], "")).2
    score := a.score }

/-- Input cases of `HandObjectInteractionDataProvider._load_data`: the
path may not exist, or the file parses to a JSON array of annotations. -/

inductive HoiSource where
  | missingFile
  | parsed (annotations : List HoiAnnotation)

/-- The timestamp grouping of `_load_data`: group the keyed records by
key, preserving encounter order inside each group (the dict
accumulation), and sort the groups ascending by key
(`sorted(temp_data.items())`, keys distinct). -/

def build_hoi_interaction_list {α : Type} (rows : List (Int × α)) :
    List (Int × List α) :=
  (((rows.map Prod.fst).dedup).insertionSort (· ≤ ·)).map
    (fun k => (k, (rows.filter (fun r => decide (r.1 = k))).map Prod.snd))

/-- `HandObjectInteractionDataProvider._load_data`: a missing path or an
empty annotation array leave the provider empty without raising;
otherwise every annotation must carry a well-formed segmentation (else
the load raises, modelled as `Except.error`), and the records are grouped
by derived timestamp and sorted. -/

def hoi_load_data : HoiSource →
    Except String (List (Int × List HandObjectInteractionDataRaw))
  | .missingFile => .ok []
  | .parsed annotations =>
      if annotations.isEmpty then .ok []
      else if annotations.all (fun a => a.segmentation.isSome) then
        .ok (build_hoi_interaction_list (annotations.map (fun a =>
          ((rawOfAnnot a).timestamp_ns, rawOfAnnot a))))
      else .error "Invalid segmentation format in annotation"

/-- `get_hoi_data_by_index`: decode and return the stored batch at
`index` when `0 <= index < len(...)`, `None` otherwise.  The decoding
conversion `convert_to_decoded_format` from `rle_utils` is an opaque
parameter applied to the stored payload unchanged. -/

def get_hoi_data_by_index {β : Type}
    (convert_to_decoded_format : List HandObjectInteractionDataRaw → β)
    (dataList : List (Int × List HandObjectInteractionDataRaw))
    (index : Int) : Option β :=
  if 0 ≤ index ∧ index < dataList.length then
    ((dataList.get? index.toNat).map Prod.snd).map convert_to_decoded_format
  else none

/-- `get_hoi_data_by_timestamp_ns`: locate the batch for the timestamp and
policy, decode it when found. -/

def get_hoi_data_by_timestamp_ns {β : Type}
    (convert_to_decoded_format : List HandObjectInteractionDataRaw → β)
    (dataList : List (Int × List HandObjectInteractionDataRaw))
    (timestamp_ns : Int) (opt : TimeQueryOptions) : Option β :=
  match find_data_by_timestamp_ns dataList timestamp_ns opt with
  | none => none
  | some undecoded => some (convert_to_decoded_format undecoded)

/-- `get_hoi_total_number`: the number of stored timestamps. -/

def get_hoi_total_number
    (dataList : List (Int × List HandObjectInteractionDataRaw)) : Nat :=
  dataList.length

/-- `has_hoi_data`: whether any interaction data is stored. -/

def has_hoi_data
    (dataList : List (Int × List HandObjectInteractionDataRaw)) : Bool :=
  decide (0 < dataList.length)

/-- The keys of the grouped list are the sorted deduplicated input keys. -/

theorem lt_bisect_left_iff (ts : List Int) (target : Int)
    (hs : List.Pairwise (· < ·) ts) :
    ∀ j, (hj : j < ts.length) →
      (j < bisect_left ts target ↔ ts.get ⟨j, hj⟩ < target) := by
  induction ts with
  | nil => intro j hj; exact absurd hj (by simp)
  | cons x xs ih =>
      rw [List.pairwise_cons] at hs
      intro j hj
      by_cases hx : x < target
      · have hcount : bisect_left (x :: xs) target
            = bisect_left xs target + 1 := by
          simp [bisect_left, List.countP_cons, hx]
        cases j with
        | zero => simpa [hcount] using hx
        | succ k =>
            have hk : k < xs.length := by
              simpa [List.length_cons, Nat.succ_lt_succ_iff] using hj
            rw [hcount]
            simp only [List.get_cons_succ]
            exact Nat.succ_lt_succ_iff.trans (ih hs.2 k hk)
      · have hzero : bisect_left (x :: xs) target = 0 := by
          have : ∀ a ∈ x :: xs, ¬ a < target := by
            intro a ha
            rcases List.mem_cons.mp ha with rfl | ha
            · exact hx
            · exact fun h => hx (lt_trans (hs.1 a ha) h)
          simp only [bisect_left, List.countP_eq_zero]
          intro a ha
          simpa using this a ha
        rw [hzero]
        constructor
        · omega
        · intro hlt
          exfalso
          cases j with
          | zero => exact hx (by simpa using hlt)
          | succ k =>
              have hk : k < xs.length := by
                simpa [List.length_cons, Nat.succ_lt_succ_iff] using hj
              have hmem : xs.get ⟨k, hk⟩ ∈ xs := List.get_mem xs k hk
              exact hx (lt_trans (hs.1 _ hmem) (by simpa using hlt))

/-- On a strictly sorted list, an index is below the `bisect_right`
insertion point exactly when its element is at most the target. -/

theorem lt_bisect_right_iff (ts : List Int) (target : Int)
    (hs : List.Pairwise (· < ·) ts) :
    ∀ j, (hj : j < ts.length) →
      (j < bisect_right ts target ↔ ts.get ⟨j, hj⟩ ≤ target) := by
  induction ts with
  | nil => intro j hj; exact absurd hj (by simp)
  | cons x xs ih =>
      rw [List.pairwise_cons] at hs
      intro j hj
      by_cases hx : x ≤ target
      · have hcount : bisect_right (x :: xs) target
            = bisect_right xs target + 1 := by
          simp [bisect_right, List.countP_cons, hx]
        cases j with
        | zero => simpa [hcount] using hx
        | succ k =>
            have hk : k < xs.length := by
              simpa [List.length_cons, Nat.succ_lt_succ_iff] using hj
            rw [hcount]
            simp only [List.get_cons_succ]
            exact Nat.succ_lt_succ_iff.trans (ih hs.2 k hk)
      · have hzero : bisect_right (x :: xs) target = 0 := by
          have : ∀ a ∈ x :: xs, ¬ a ≤ target := by
            intro a ha
            rcases List.mem_cons.mp ha with rfl | ha
            · exact hx
            · exact fun h => hx (le_of_lt (lt_of_lt_of_le (hs.1 a ha) h))
          simp only [bisect_right, List.countP_eq_zero]
          intro a ha
          simpa using this a ha
        rw [hzero]
        constructor
        · omega
        · intro hle
          exfalso
          cases j with
          | zero => exact hx (by simpa using hle)
          | succ k =>
              have hk : k < xs.length := by
                simpa [List.length_cons, Nat.succ_lt_succ_iff] using hj
              have hmem : xs.get ⟨k, hk⟩ ∈ xs := List.get_mem xs k hk
              exact hx (le_of_lt (lt_of_lt_of_le (hs.1 _ hmem) (by simpa using hle)))

theorem bisect_left_le_length (ts : List Int) (target : Int) :
    bisect_left ts target ≤ ts.length :=
  List.countP_le_length _

theorem bisect_right_le_length (ts : List Int) (target : Int) :
    bisect_right ts target ≤ ts.length :=
  List.countP_le_length _

theorem pairwise_lt_get {ts : List Int} (hs : List.Pairwise (· < ·) ts)
    {j k : Nat} (hj : j < ts.length) (hk : k < ts.length) (hjk : j < k) :
    ts.get ⟨j, hj⟩ < ts.get ⟨k, hk⟩ :=
  List.pairwise_iff_get.mp hs ⟨j, hj⟩ ⟨k, hk⟩ hjk

/-- `getD` with default `0` agrees with `get` inside the bounds. -/

theorem getD_eq_get_int (l : List Int) {j : Nat} (h : j < l.length) :
    l.getD j 0 = l.get ⟨j, h⟩ := by
  simp [List.getD_eq_getElem?_getD, List.getElem?_eq_getElem h]

/-- Specification of the BEFORE policy: a returned index is in range,
its timestamp is at most the target, and it is the greatest such index. -/

theorem before_spec (ts : List Int) (target : Int)
    (hs : List.Pairwise (· < ·) ts) (b : Nat)
    (h : find_timestamp_index_by_time_query_option ts target .BEFORE = some b) :
    ∃ hb : b < ts.length, ts.get ⟨b, hb⟩ ≤ target ∧
      ∀ j, (hj : j < ts.length) → ts.get ⟨j, hj⟩ ≤ target → j ≤ b := by
  simp only [find_timestamp_index_by_time_query_option] at h
  by_cases h0 : bisect_right ts target = 0
  · simp [h0] at h
  · simp only [h0, if_false, Option.some.injEq] at h
    subst h
    set b := bisect_right ts target - 1 with hbdef
    have hble : bisect_right ts target ≤ ts.length :=
      bisect_right_le_length ts target
    have hb : b < ts.length := by omega
    refine ⟨hb, ?_, ?_⟩
    · have : b < bisect_right ts target := by omega
      exact (lt_bisect_right_iff ts target hs b hb).mp this
    · intro j hj hjle
      have : j < bisect_right ts target :=
        (lt_bisect_right_iff ts target hs j hj).mpr hjle
      omega

/-- Specification of the AFTER policy: a returned index is in range,
its timestamp is at least the target, and it is the smallest such index. -/

theorem after_spec (ts : List Int) (target : Int)
    (hs : List.Pairwise (· < ·) ts) (a : Nat)
    (h : find_timestamp_index_by_time_query_option ts target .AFTER = some a) :
    ∃ ha : a < ts.length, target ≤ ts.get ⟨a, ha⟩ ∧
      ∀ j, (hj : j < ts.length) → target ≤ ts.get ⟨j, hj⟩ → a ≤ j := by
  simp only [find_timestamp_index_by_time_query_option] at h
  by_cases hn : bisect_left ts target = ts.length
  · simp [hn] at h
  · simp only [hn, if_false, Option.some.injEq] at h
    subst h
    have hle : bisect_left ts target ≤ ts.length :=
      bisect_left_le_length ts target
    have ha : bisect_left ts target < ts.length := by omega
    refine ⟨ha, ?_, ?_⟩
    · have : ¬ bisect_left ts target < bisect_left ts target := lt_irrefl _
      have := (lt_bisect_left_iff ts target hs _ ha).not.mp this
      omega
    · intro j hj hjge
      by_contra hlt
      push_neg at hlt
      have : ts.get ⟨j, hj⟩ < target :=
        (lt_bisect_left_iff ts target hs j hj).mp hlt
      omega

theorem before_query_greatest_le (ts : List Int) (target : Int)
    (hs : List.Pairwise (· < ·) ts) :
    (∀ b, find_timestamp_index_by_time_query_option ts target .BEFORE = some b →
       ∃ hb : b < ts.length, ts.get ⟨b, hb⟩ ≤ target ∧
         ∀ j, (hj : j < ts.length) → ts.get ⟨j, hj⟩ ≤ target → j ≤ b) ∧
    (find_timestamp_index_by_time_query_option ts target .BEFORE = none ↔
       (ts = [] ∨ ∃ h0 : 0 < ts.length, target < ts.get ⟨0, h0⟩)) := by
  constructor
  · intro b hb
    exact before_spec ts target hs b hb
  · simp only [find_timestamp_index_by_time_query_option]
    by_cases h0 : bisect_right ts target = 0
    · simp only [h0, if_true, true_iff]
      cases ts with
      | nil => exact Or.inl rfl
      | cons x xs =>
          refine Or.inr ⟨by simp, ?_⟩
          have hx : ¬ (0 < bisect_right (x :: xs) target) := by omega
          have := (lt_bisect_right_iff (x :: xs) target hs 0 (by simp)).not.mp hx
          simpa using lt_of_not_le this
    · rw [if_neg h0]
      constructor
      · intro hcontra
        exact Option.noConfusion hcontra
      · rintro (hnil | ⟨hlen, hlt⟩)
        · rw [hnil] at h0
          simp [bisect_right] at h0
        · exfalso
          have h1 : 0 < bisect_right ts target := by omega
          have := (lt_bisect_right_iff ts target hs 0 hlen).mp h1
          omega

/-- C2 witness: on `[100, 200, 300, 400, 500]` with target `250`, BEFORE
returns index 1 (timestamp 200), the greatest timestamp `≤ 250`. -/

theorem before_query_greatest_le_witness :
    (∀ b, find_timestamp_index_by_time_query_option
        [100, 200, 300, 400, 500] 250 .BEFORE = some b →
       ∃ hb : b < ([100, 200, 300, 400, 500] : List Int).length,
         ([100, 200, 300, 400, 500] : List Int).get ⟨b, hb⟩ ≤ 250 ∧
         ∀ j, (hj : j < ([100, 200, 300, 400, 500] : List Int).length) →
           ([100, 200, 300, 400, 500] : List Int).get ⟨j, hj⟩ ≤ 250 → j ≤ b) ∧
    (find_timestamp_index_by_time_query_option
        [100, 200, 300, 400, 500] 250 .BEFORE = none ↔
       (([100, 200, 300, 400, 500] : List Int) = [] ∨
         ∃ h0 : 0 < ([100, 200, 300, 400, 500] : List Int).length,
           250 < ([100, 200, 300, 400, 500] : List Int).get ⟨0, h0⟩)) :=
  before_query_greatest_le [100, 200, 300, 400, 500] 250 (by decide)

/-- Specification of the CLOSEST policy: a returned index is in range,
minimizes the absolute distance to the target, and is the smallest index
achieving that minimum (ties resolve to the earlier index). -/

theorem closest_spec (ts : List Int) (target : Int)
    (hs : List.Pairwise (· < ·) ts) (i : Nat)
    (h : find_timestamp_index_by_time_query_option ts target .CLOSEST = some i) :
    ∃ hi : i < ts.length,
      (∀ j, (hj : j < ts.length) →
        (ts.get ⟨i, hi⟩ - target).natAbs ≤ (ts.get ⟨j, hj⟩ - target).natAbs) ∧
      (∀ j, (hj : j < ts.length) →
        (ts.get ⟨j, hj⟩ - target).natAbs = (ts.get ⟨i, hi⟩ - target).natAbs →
          i ≤ j) := by
  simp only [find_timestamp_index_by_time_query_option] at h
  by_cases hn : ts.length = 0
  · rw [if_pos hn] at h
    exact Option.noConfusion h
  · rw [if_neg hn] at h
    have hlen : 0 < ts.length := Nat.pos_of_ne_zero hn
    have hble : bisect_left ts target ≤ ts.length :=
      bisect_left_le_length ts target
    by_cases h0 : bisect_left ts target = 0
    · rw [if_pos h0, Option.some.injEq] at h
      subst h
      refine ⟨hlen, ?_, ?_⟩
      · intro j hj
        have hge0 : target ≤ ts.get ⟨0, hlen⟩ := by
          have : ¬ (0 < bisect_left ts target) := by omega
          have := (lt_bisect_left_iff ts target hs 0 hlen).not.mp this
          omega
        have hgej : target ≤ ts.get ⟨j, hj⟩ := by
          have : ¬ (j < bisect_left ts target) := by omega
          have := (lt_bisect_left_iff ts target hs j hj).not.mp this
          omega
        rcases Nat.eq_zero_or_pos j with rfl | hjpos
        · omega
        · have := pairwise_lt_get hs hlen hj hjpos
          omega
      · intro j hj _
        exact Nat.zero_le j
    · by_cases hN : bisect_left ts target = ts.length
      · rw [if_neg h0, if_pos hN, Option.some.injEq] at h
        subst h
        have hi : ts.length - 1 < ts.length := by omega
        refine ⟨hi, ?_, ?_⟩
        · intro j hj
          have hltj : ts.get ⟨j, hj⟩ < target :=
            (lt_bisect_left_iff ts target hs j hj).mp (by omega)
          have hlti : ts.get ⟨ts.length - 1, hi⟩ < target :=
            (lt_bisect_left_iff ts target hs _ hi).mp (by omega)
          rcases Nat.lt_or_ge j (ts.length - 1) with hjlt | hjge
          · have := pairwise_lt_get hs hj hi hjlt
            omega
          · have : j = ts.length - 1 := by omega
            subst this
            omega
        · intro j hj heq
          by_contra hcon
          push_neg at hcon
          have hmono := pairwise_lt_get hs hj hi hcon
          have hltj : ts.get ⟨j, hj⟩ < target :=
            (lt_bisect_left_iff ts target hs j hj).mp (by omega)
          have hlti : ts.get ⟨ts.length - 1, hi⟩ < target :=
            (lt_bisect_left_iff ts target hs _ hi).mp (by omega)
          omega
      · have hp : bisect_left ts target - 1 < ts.length := by omega
        have hq : bisect_left ts target < ts.length := by omega
        rw [if_neg h0, if_neg hN, getD_eq_get_int ts hp, getD_eq_get_int ts hq]
          at h
        have hltp : ts.get ⟨bisect_left ts target - 1, hp⟩ < target :=
          (lt_bisect_left_iff ts target hs _ hp).mp (by omega)
        have hgeq : target ≤ ts.get ⟨bisect_left ts target, hq⟩ := by
          have : ¬ (bisect_left ts target < bisect_left ts target) :=
            lt_irrefl _
          have := (lt_bisect_left_iff ts target hs _ hq).not.mp this
          omega
        by_cases hcmp : target - ts.get ⟨bisect_left ts target - 1, hp⟩ ≤
            ts.get ⟨bisect_left ts target, hq⟩ - target
        · rw [if_pos hcmp, Option.some.injEq] at h
          subst h
          refine ⟨hp, ?_, ?_⟩
          · intro j hj
            rcases Nat.lt_or_ge j (bisect_left ts target) with hjlt | hjge
            · have hltj : ts.get ⟨j, hj⟩ < target :=
                (lt_bisect_left_iff ts target hs j hj).mp hjlt
              rcases Nat.lt_or_ge j (bisect_left ts target - 1) with hj2 | hj2
              · have := pairwise_lt_get hs hj hp hj2
                omega
              · have : j = bisect_left ts target - 1 := by omega
                subst this
                omega
            · have hgej : target ≤ ts.get ⟨j, hj⟩ := by
                have : ¬ (j < bisect_left ts target) := by omega
                have := (lt_bisect_left_iff ts target hs j hj).not.mp this
                omega
              rcases Nat.lt_or_ge (bisect_left ts target) j with hj2 | hj2
              · have := pairwise_lt_get hs hq hj hj2
                omega
              · have heqj : j = bisect_left ts target := by omega
                subst heqj
                have hrw : ts.get ⟨bisect_left ts target, hj⟩
                    = ts.get ⟨bisect_left ts target, hq⟩ := rfl
                rw [hrw]
                omega
          · intro j hj heq
            by_contra hcon
            push_neg at hcon
            have hmono := pairwise_lt_get hs hj hp hcon
            have hltj : ts.get ⟨j, hj⟩ < target :=
              (lt_bisect_left_iff ts target hs j hj).mp (by omega)
            omega
        · rw [if_neg hcmp, Option.some.injEq] at h
          subst h
          push_neg at hcmp
          refine ⟨hq, ?_, ?_⟩
          · intro j hj
            rcases Nat.lt_or_ge j (bisect_left ts target) with hjlt | hjge
            · have hltj : ts.get ⟨j, hj⟩ < target :=
                (lt_bisect_left_iff ts target hs j hj).mp hjlt
              rcases Nat.lt_or_ge j (bisect_left ts target - 1) with hj2 | hj2
              · have := pairwise_lt_get hs hj hp hj2
                omega
              · have : j = bisect_left ts target - 1 := by omega
                subst this
                omega
            · have hgej : target ≤ ts.get ⟨j, hj⟩ := by
                have : ¬ (j < bisect_left ts target) := by omega
                have := (lt_bisect_left_iff ts target hs j hj).not.mp this
                omega
              rcases Nat.lt_or_ge (bisect_left ts target) j with hj2 | hj2
              · have := pairwise_lt_get hs hq hj hj2
                omega
              · have heqj : j = bisect_left ts target := by omega
                subst heqj
                have hrw : ts.get ⟨bisect_left ts target, hj⟩
                    = ts.get ⟨bisect_left ts target, hq⟩ := rfl
                rw [hrw]
          · intro j hj heq
            by_contra hcon
            push_neg at hcon
            have hjle : j < bisect_left ts target := hcon
            have hltj : ts.get ⟨j, hj⟩ < target :=
              (lt_bisect_left_iff ts target hs j hj).mp hjle
            rcases Nat.lt_or_ge j (bisect_left ts target - 1) with hj2 | hj2
            · have hmono := pairwise_lt_get hs hj hp hj2
              omega
            · have : j = bisect_left ts target - 1 := by omega
              subst this
              omega

/-- C1: for every non-empty strictly increasing timestamp sequence and
target, `Locate(target, CLOSEST)` returns the index minimizing
`|ts[i] - target|`, the earlier index winning exact-distance ties, and
NotFound is returned exactly when the sequence is empty. -/

theorem closest_query_minimizes (ts : List Int) (target : Int)
    (hs : List.Pairwise (· < ·) ts) :
    (find_timestamp_index_by_time_query_option ts target .CLOSEST = none ↔
      ts = []) ∧
    (∀ i, find_timestamp_index_by_time_query_option ts target .CLOSEST
        = some i →
      ∃ hi : i < ts.length,
        (∀ j, (hj : j < ts.length) →
          (ts.get ⟨i, hi⟩ - target).natAbs ≤ (ts.get ⟨j, hj⟩ - target).natAbs) ∧
        (∀ j, (hj : j < ts.length) →
          (ts.get ⟨j, hj⟩ - target).natAbs = (ts.get ⟨i, hi⟩ - target).natAbs →
            i ≤ j)) := by
  constructor
  · simp only [find_timestamp_index_by_time_query_option]
    by_cases hn : ts.length = 0
    · rw [if_pos hn]
      simp only [true_iff]
      exact List.length_eq_zero.mp hn
    · rw [if_neg hn]
      constructor
      · intro hcontra
        by_cases h0 : bisect_left ts target = 0
        · rw [if_pos h0] at hcontra
          exact Option.noConfusion hcontra
        · rw [if_neg h0] at hcontra
          by_cases hN : bisect_left ts target = ts.length
          · rw [if_pos hN] at hcontra
            exact Option.noConfusion hcontra
          · rw [if_neg hN] at hcontra
            by_cases hcmp : target - ts.getD (bisect_left ts target - 1) 0 ≤
                ts.getD (bisect_left ts target) 0 - target
            · rw [if_pos hcmp] at hcontra
              exact Option.noConfusion hcontra
            · rw [if_neg hcmp] at hcontra
              exact Option.noConfusion hcontra
      · intro hnil
        exact absurd (congrArg List.length hnil) (by simpa using hn)
  · intro i hi
    exact closest_spec ts target hs i hi

/-- C1 witness: on `[100, 200, 300, 400, 500]` with target `250`, distances
to 200 and to 300 are both 50 and CLOSEST returns the earlier index 1. -/

theorem closest_query_minimizes_witness :
    (find_timestamp_index_by_time_query_option
        [100, 200, 300, 400, 500] 250 .CLOSEST = none ↔
      ([100, 200, 300, 400, 500] : List Int) = []) ∧
    (∀ i, find_timestamp_index_by_time_query_option
        [100, 200, 300, 400, 500] 250 .CLOSEST = some i →
      ∃ hi : i < ([100, 200, 300, 400, 500] : List Int).length,
        (∀ j, (hj : j < ([100, 200, 300, 400, 500] : List Int).length) →
          (([100, 200, 300, 400, 500] : List Int).get ⟨i, hi⟩ - 250).natAbs ≤
            (([100, 200, 300, 400, 500] : List Int).get ⟨j, hj⟩ - 250).natAbs) ∧
        (∀ j, (hj : j < ([100, 200, 300, 400, 500] : List Int).length) →
          (([100, 200, 300, 400, 500] : List Int).get ⟨j, hj⟩ - 250).natAbs =
            (([100, 200, 300, 400, 500] : List Int).get ⟨i, hi⟩ - 250).natAbs →
              i ≤ j)) :=
  closest_query_minimizes [100, 200, 300, 400, 500] 250 (by decide)

/-- C8: whenever BEFORE and AFTER both succeed on a strictly increasing
sequence, the BEFORE timestamp is at most the target, the AFTER timestamp
is at least the target, and the two indices coincide exactly when some
timestamp equals the target. -/

theorem before_after_bracket (ts : List Int) (target : Int)
    (hs : List.Pairwise (· < ·) ts) (b a : Nat)
    (hb : find_timestamp_index_by_time_query_option ts target .BEFORE = some b)
    (ha : find_timestamp_index_by_time_query_option ts target .AFTER = some a) :
    ∃ (hbl : b < ts.length) (hal : a < ts.length),
      ts.get ⟨b, hbl⟩ ≤ target ∧ target ≤ ts.get ⟨a, hal⟩ ∧
      (b = a ↔ ∃ j, ∃ hj : j < ts.length, ts.get ⟨j, hj⟩ = target) := by
  obtain ⟨hbl, hble, hbmax⟩ := before_spec ts target hs b hb
  obtain ⟨hal, hage, hamin⟩ := after_spec ts target hs a ha
  refine ⟨hbl, hal, hble, hage, ?_, ?_⟩
  · intro hba
    subst hba
    refine ⟨b, hbl, ?_⟩
    have : ts.get ⟨b, hbl⟩ = ts.get ⟨b, hal⟩ := rfl
    omega
  · rintro ⟨j, hj, hjeq⟩
    have hjb : j ≤ b := hbmax j hj (le_of_eq hjeq)
    have haj : a ≤ j := hamin j hj (ge_of_eq hjeq)
    have hbj : b ≤ j := by
      by_contra hcon
      push_neg at hcon
      have := pairwise_lt_get hs hj hbl hcon
      omega
    have hja : j ≤ a := by
      by_contra hcon
      push_neg at hcon
      have := pairwise_lt_get hs hal hj hcon
      omega
    omega

/-- C8 witness: on `[100, 200, 300, 400, 500]` with target `250`, BEFORE
returns index 1 and AFTER index 2, bracketing the target, and the indices
differ since no timestamp equals 250. -/

theorem before_after_bracket_witness :
    ∃ (hbl : (1 : Nat) < ([100, 200, 300, 400, 500] : List Int).length)
      (hal : (2 : Nat) < ([100, 200, 300, 400, 500] : List Int).length),
      ([100, 200, 300, 400, 500] : List Int).get ⟨1, hbl⟩ ≤ 250 ∧
      (250 : Int) ≤ ([100, 200, 300, 400, 500] : List Int).get ⟨2, hal⟩ ∧
      ((1 : Nat) = 2 ↔ ∃ j, ∃ hj : j < ([100, 200, 300, 400, 500] : List Int).length,
        ([100, 200, 300, 400, 500] : List Int).get ⟨j, hj⟩ = 250) :=
  before_after_bracket [100, 200, 300, 400, 500] 250 (by decide) 1 2
    (by decide) (by decide)

/-- A diarization segment: a closed time interval with speaker/content
payload, as parsed from `diarization_results.csv`. -/

theorem point_query_exact_and_sorted (rows : List DiarizationData) (t : Int) :
    (∀ s, s ∈ get_diarization_data_by_timestamp_ns
        (build_diarization_data rows) t ↔
      (s ∈ rows ∧ s.start_timestamp_ns ≤ t ∧ t ≤ s.end_timestamp_ns)) ∧
    List.Sorted startLE
      (get_diarization_data_by_timestamp_ns (build_diarization_data rows) t) := by
  constructor
  · intro s
    rw [get_diarization_data_by_timestamp_ns, List.mem_filter,
      build_diarization_data,
      (List.perm_insertionSort startLE rows).mem_iff, decide_eq_true_iff]
  · exact List.Pairwise.filter _ (List.sorted_insertionSort startLE rows)

/-- C4: a range query whose end precedes its start is well-defined and
returns the empty list on every interval collection. -/

theorem range_query_inverted_empty (data : List DiarizationData)
    (qStart qEnd : Int) (h : qEnd < qStart) :
    get_diarization_data_by_start_and_end_timestamps data qStart qEnd = [] :=
  if_pos h

/-- C4 witness: the test file's inverted query `(3000000000, 2000000000)`
on the built seven-segment collection returns the empty list. -/

theorem range_query_inverted_empty_witness :
    get_diarization_data_by_start_and_end_timestamps
      (build_diarization_data
        [⟨1000000000, 2000000000, "Speaker1", "Hello world"⟩,
         ⟨1500000000, 2500000000, "Speaker2", "Good morning overlapping"⟩,
         ⟨2500000000, 3500000000, "Speaker2", "How are you"⟩])
      3000000000 2000000000 = [] :=
  range_query_inverted_empty _ 3000000000 2000000000 (by decide)

/-- Standard run-length encoding of a boolean sequence: maximal runs of
equal values paired with their positive lengths. -/

theorem expandRuns_toAlternating_rle (v : List Bool) :
    ∀ b, expandRuns b (toAlternating b (rle v)) = v := by
  induction v with
  | nil => intro b; rfl
  | cons x xs ih =>
      intro b
      rcases hr : rle xs with _ | ⟨⟨y, n⟩, rest⟩
      · have hxs : xs = [] := by
          have := ih b
          rw [hr] at this
          simpa [toAlternating, expandRuns] using this.symm
        subst hxs
        by_cases hxb : x = b
        · subst hxb
          simp [rle, toAlternating, expandRuns]
        · have hx : x = !b := Bool.eq_not_iff.mpr hxb
          subst hx
          simp [rle, toAlternating, expandRuns, hxb]
      · by_cases hxy : x = y
        · subst hxy
          have hrx : rle (x :: xs) = (x, n + 1) :: rest := by
            rw [rle, hr]
            simp
          by_cases hxb : x = b
          · subst hxb
            have ihx := ih x
            rw [hr] at ihx
            rw [hrx]
            simp only [toAlternating, if_pos rfl, expandRuns] at ihx ⊢
            rw [List.replicate_succ, List.cons_append, ihx]
          · have ihx := ih b
            rw [hr] at ihx
            rw [hrx]
            simp only [toAlternating, if_neg hxb, expandRuns] at ihx ⊢
            simp only [List.replicate_zero, List.nil_append,
              List.replicate_succ, List.cons_append, Bool.not_not] at ihx ⊢
            rw [ihx]
            have hx : x = !b := Bool.eq_not_iff.mpr hxb
            rw [← hx]
        · have hrx : rle (x :: xs) = (x, 1) :: (y, n) :: rest := by
            rw [rle, hr]
            simp [hxy]
          rw [hrx]
          by_cases hxb : x = b
          · subst hxb
            have ihx := ih (!x)
            rw [hr] at ihx
            simp only [toAlternating, if_pos rfl, expandRuns] at ihx ⊢
            rw [List.replicate_succ, List.replicate_zero, List.cons_append,
              List.nil_append, ihx]
          · have ihx := ih b
            rw [hr] at ihx
            simp only [toAlternating, if_neg hxb, expandRuns] at ihx ⊢
            simp only [List.replicate_zero, List.nil_append,
              List.replicate_succ, List.cons_append, Bool.not_not] at ihx ⊢
            rw [ihx]
            have hx : x = !b := Bool.eq_not_iff.mpr hxb
            rw [← hx]

/-- The expansion of alternating counts has length equal to their sum. -/

theorem expandRuns_length (counts : List Nat) :
    ∀ b, (expandRuns b counts).length = counts.sum := by
  induction counts with
  | nil => intro b; rfl
  | cons n rest ih =>
      intro b
      simp [expandRuns, ih (!b)]

/-- Flattening a grid of `W` columns of height `H` yields `H * W` cells. -/

theorem join_length_of_cols (H : Nat) (grid : List (List Bool))
    (hcols : ∀ c ∈ grid, c.length = H) :
    grid.join.length = H * grid.length := by
  induction grid with
  | nil => simp
  | cons c cs ih =>
      have hc : c.length = H := hcols c (List.mem_cons_self c cs)
      have ihc := ih (fun d hd => hcols d (List.mem_cons_of_mem c hd))
      simp [List.join, hc, ihc, Nat.mul_succ, Nat.add_comm]

/-- Cutting the flattened grid back into columns restores the grid. -/

theorem chunkColumns_join (H : Nat) (grid : List (List Bool))
    (hcols : ∀ c ∈ grid, c.length = H) :
    chunkColumns H grid.length grid.join = grid := by
  induction grid with
  | nil => rfl
  | cons c cs ih =>
      have hc : c.length = H := hcols c (List.mem_cons_self c cs)
      have ihc := ih (fun d hd => hcols d (List.mem_cons_of_mem c hd))
      simp only [List.length_cons, List.join_cons, chunkColumns]
      rw [List.take_left' hc, List.drop_left' hc, ihc]

/-- C5: the mask codec's Encode is the exact inverse of Decode: decoding
the encoding of any boolean grid at the grid's own size succeeds and
returns the grid (all-background, all-foreground and checkerboard grids
included, since the grid is arbitrary). -/

theorem mask_decode_encode_roundtrip (H : Nat) (grid : List (List Bool))
    (hcols : ∀ c ∈ grid, c.length = H) :
    mask_decode H grid.length (mask_encode grid) = some grid := by
  have hsum : (mask_encode grid).sum = H * grid.length := by
    have h1 : (expandRuns false (mask_encode grid)).length
        = (mask_encode grid).sum := expandRuns_length _ false
    have h2 : expandRuns false (mask_encode grid) = grid.join :=
      expandRuns_toAlternating_rle grid.join false
    rw [h2] at h1
    rw [← h1, join_length_of_cols H grid hcols]
  rw [mask_decode, if_pos hsum, mask_encode,
    expandRuns_toAlternating_rle grid.join false,
    chunkColumns_join H grid hcols]

/-- C5 witness: the 2×2 checkerboard grid round-trips through the codec. -/

theorem mask_decode_encode_roundtrip_witness :
    mask_decode 2 ([[false, true], [true, false]] : List (List Bool)).length
      (mask_encode [[false, true], [true, false]])
      = some [[false, true], [true, false]] :=
  mask_decode_encode_roundtrip 2 [[false, true], [true, false]] (by decide)

/-- One heart-rate sample, as parsed from `heart_rate_results.csv`. -/

theorem strictlyIncreasingKeys_pairwise {α : Type} :
    ∀ l : List (Int × α), strictlyIncreasingKeys l = true →
      List.Pairwise (fun a b : Int × α => a.1 < b.1) l
  | [] => fun _ => List.Pairwise.nil
  | [a] => fun _ => by simp
  | a :: b :: rest => fun h => by
      rw [strictlyIncreasingKeys, Bool.and_eq_true, decide_eq_true_iff] at h
      have ih := strictlyIncreasingKeys_pairwise (b :: rest) h.2
      rw [List.pairwise_cons]
      refine ⟨?_, ih⟩
      intro c hc
      rcases List.mem_cons.mp hc with rfl | hc
      · exact h.1
      · exact lt_trans h.1 ((List.pairwise_cons.mp ih).1 c hc)

/-- A `keyLE`-sorted list without adjacent duplicate keys has strictly
increasing adjacent keys. -/

theorem strictlyIncreasingKeys_of_sorted_nodups {α : Type} :
    ∀ l : List (Int × α), List.Pairwise keyLE l →
      adjacentDuplicates l = [] → strictlyIncreasingKeys l = true
  | [] => fun _ _ => rfl
  | [a] => fun _ _ => rfl
  | a :: b :: rest => fun h hd => by
      rw [adjacentDuplicates, List.append_eq_nil] at hd
      have hne : a.1 ≠ b.1 := by
        intro heq
        rw [if_pos heq] at hd
        exact List.cons_ne_nil _ _ hd.1
      have hab : a.1 < b.1 :=
        lt_of_le_of_ne ((List.pairwise_cons.mp h).1 b (List.mem_cons_self b rest)) hne
      rw [strictlyIncreasingKeys, Bool.and_eq_true, decide_eq_true_iff]
      exact ⟨hab, strictlyIncreasingKeys_of_sorted_nodups (b :: rest)
        (List.pairwise_cons.mp h).2 hd.2⟩

/-- On a `keyLE`-sorted list the adjacent-duplicate scan contains exactly
the keys occurring at least twice. -/

theorem adjacentDuplicates_count {α : Type} :
    ∀ l : List (Int × α), List.Pairwise keyLE l →
      ∀ t : Int, (t ∈ adjacentDuplicates l ↔ 2 ≤ (l.map Prod.fst).count t)
  | [] => by
      intro _ t
      simp [adjacentDuplicates]
  | [a] => by
      intro _ t
      by_cases hat : a.1 = t
      · simp [adjacentDuplicates, hat]
      · simp [adjacentDuplicates, List.count_cons, hat]
  | a :: b :: rest => by
      intro h t
      obtain ⟨hhead, htail⟩ := List.pairwise_cons.mp h
      have hab : keyLE a b := hhead b (List.mem_cons_self b rest)
      have ih := adjacentDuplicates_count (b :: rest) htail t
      by_cases hat : a.1 = t
      · by_cases hab2 : a.1 = b.1
        · have hbt : b.1 = t := by omega
          apply iff_of_true
          · rw [adjacentDuplicates, if_pos hab2]
            exact List.mem_append.mpr (Or.inl (by simp [hat]))
          · simp only [List.map_cons, List.count_cons, beq_iff_eq,
              if_pos hat, if_pos hbt]
            omega
        · have hlt : a.1 < b.1 := lt_of_le_of_ne hab hab2
          have hnm : t ∉ (b :: rest).map Prod.fst := by
            intro hmem
            rcases List.mem_map.mp hmem with ⟨c, hc, hct⟩
            rcases List.mem_cons.mp hc with rfl | hc
            · omega
            · have : keyLE b c :=
                (List.pairwise_cons.mp htail).1 c hc
              have : b.1 ≤ c.1 := this
              omega
          have hzero : ((b :: rest).map Prod.fst).count t = 0 :=
            List.count_eq_zero.mpr hnm
          apply iff_of_false
          · rw [adjacentDuplicates, if_neg hab2, List.nil_append]
            intro hmem
            have := ih.mp hmem
            omega
          · simp only [List.map_cons, List.count_cons, beq_iff_eq, if_pos hat]
            simp only [List.map_cons, List.count_cons, beq_iff_eq] at hzero
            omega
      · rw [adjacentDuplicates, List.mem_append]
        have hnm1 : t ∉ (if a.1 = b.1 then [a.1] else []) := by
          split
          · simp only [List.mem_singleton]
            omega
          · simp
        rw [or_iff_right hnm1, ih]
        simp only [List.map_cons, List.count_cons, beq_iff_eq, if_neg hat]
        omega

/-- C6: loading heart-rate rows containing duplicate timestamps fails with
an error naming every duplicated timestamp value (each value with at least
two occurrences appears in the reported list, and nothing else does). -/

theorem duplicate_timestamps_all_reported (rows : List (Int × HeartRateData))
    (hdup : ∃ t, 2 ≤ (rows.map Prod.fst).count t) :
    ∃ dups, load_heart_rate_data rows = .error dups ∧
      ∀ t, (2 ≤ (rows.map Prod.fst).count t ↔ t ∈ dups) := by
  obtain ⟨t0, ht0⟩ := hdup
  have hne : rows.isEmpty = false := by
    cases rows with
    | nil => simp at ht0
    | cons a l => rfl
  have hstrict : strictlyIncreasingKeys rows = false := by
    cases hsk : strictlyIncreasingKeys rows
    · rfl
    · exfalso
      have hp := strictlyIncreasingKeys_pairwise rows hsk
      have hpk : List.Pairwise (· < ·) (rows.map Prod.fst) :=
        List.pairwise_map.mpr hp
      have hnd : (rows.map Prod.fst).Nodup :=
        hpk.imp (fun h => ne_of_lt h)
      have := List.nodup_iff_count_le_one.mp hnd t0
      omega
  have hperm := List.perm_insertionSort keyLE rows
  have hsorted : List.Pairwise keyLE (rows.insertionSort keyLE) :=
    List.sorted_insertionSort keyLE rows
  have hcnt : ∀ t, (((rows.insertionSort keyLE).map Prod.fst).count t)
      = (rows.map Prod.fst).count t :=
    fun t => (hperm.map Prod.fst).count_eq t
  have hmemdup : ∀ t, t ∈ adjacentDuplicates (rows.insertionSort keyLE) ↔
      2 ≤ (rows.map Prod.fst).count t :=
    fun t => (adjacentDuplicates_count (rows.insertionSort keyLE) hsorted t).trans
      (by rw [hcnt t])
  have ht0mem : t0 ∈ adjacentDuplicates (rows.insertionSort keyLE) :=
    (hmemdup t0).mpr ht0
  have hdne : (adjacentDuplicates (rows.insertionSort keyLE)).isEmpty = false := by
    cases hcase : adjacentDuplicates (rows.insertionSort keyLE) with
    | nil => rw [hcase] at ht0mem; simp at ht0mem
    | cons c cs => rfl
  refine ⟨adjacentDuplicates (rows.insertionSort keyLE), ?_, ?_⟩
  · rw [load_heart_rate_data, hne, hstrict]
    simp only [Bool.false_eq_true, if_false, hdne]
  · intro t
    exact (hmemdup t).symm

/-- C6 witness: two samples sharing timestamp 1000 make loading fail with
a duplicate list containing exactly the value 1000. -/

theorem duplicate_timestamps_all_reported_witness :
    ∃ dups, load_heart_rate_data
        [(1000, HeartRateData.mk 1000 72), (1000, HeartRateData.mk 1000 75)]
      = .error dups ∧
      ∀ t, (2 ≤ ((([(1000, HeartRateData.mk 1000 72),
          (1000, HeartRateData.mk 1000 75)]).map Prod.fst).count t) ↔
        t ∈ dups) :=
  duplicate_timestamps_all_reported _ ⟨1000, by decide⟩

/-- The stored per-annotation record `HandObjectInteractionDataRaw`.
`bbox` and `score` are opaque payloads carried through unchanged (Python
floats, modelled as rationals since the provider never computes with
them). -/

theorem build_hoi_keys {α : Type} (rows : List (Int × α)) :
    (build_hoi_interaction_list rows).map Prod.fst
      = ((rows.map Prod.fst).dedup).insertionSort (· ≤ ·) := by
  rw [build_hoi_interaction_list, List.map_map]
  exact List.map_id _

/-- C7: after construction the stored key sequence of both providers is
strictly increasing: a successful heart-rate load yields strictly
increasing timestamps (duplicates having been rejected), and the
hand-object-interaction grouping yields strictly increasing timestamps
with each entry carrying the list of all payloads sharing its timestamp,
an entry existing exactly for the timestamps present in the input. -/

theorem timestamp_keys_strictly_increasing :
    (∀ rows out : List (Int × HeartRateData),
        load_heart_rate_data rows = .ok out →
        List.Pairwise (· < ·) (out.map Prod.fst)) ∧
    (∀ rows : List (Int × HandObjectInteractionDataRaw),
        List.Pairwise (· < ·)
          ((build_hoi_interaction_list rows).map Prod.fst) ∧
        (∀ k ps, (k, ps) ∈ build_hoi_interaction_list rows →
            ps = (rows.filter (fun r => decide (r.1 = k))).map Prod.snd) ∧
        (∀ k, (∃ ps, (k, ps) ∈ build_hoi_interaction_list rows) ↔
            k ∈ rows.map Prod.fst)) := by
  constructor
  · intro rows out h
    rw [load_heart_rate_data] at h
    by_cases hemp : rows.isEmpty = true
    · rw [if_pos hemp] at h
      injection h with h
      subst h
      rw [List.isEmpty_iff.mp hemp]
      exact List.Pairwise.nil
    · rw [if_neg hemp] at h
      by_cases hstrict : strictlyIncreasingKeys rows = true
      · rw [if_pos hstrict] at h
        injection h with h
        subst h
        exact List.pairwise_map.mpr (strictlyIncreasingKeys_pairwise rows hstrict)
      · rw [if_neg hstrict] at h
        simp only at h
        by_cases hde :
            (adjacentDuplicates (rows.insertionSort keyLE)).isEmpty = true
        · rw [if_pos hde] at h
          injection h with h
          subst h
          have hsorted : List.Pairwise keyLE (rows.insertionSort keyLE) :=
            List.sorted_insertionSort keyLE rows
          have hnil : adjacentDuplicates (rows.insertionSort keyLE) = [] :=
            List.isEmpty_iff.mp hde
          have hstr := strictlyIncreasingKeys_of_sorted_nodups
            (rows.insertionSort keyLE) hsorted hnil
          exact List.pairwise_map.mpr
            (strictlyIncreasingKeys_pairwise _ hstr)
        · rw [if_neg hde] at h
          exact Except.noConfusion h
  · intro rows
    refine ⟨?_, ?_, ?_⟩
    · rw [build_hoi_keys]
      have hsorted : List.Pairwise (· ≤ ·)
          (((rows.map Prod.fst).dedup).insertionSort (· ≤ ·)) :=
        List.sorted_insertionSort _ _
      have hnodup : (((rows.map Prod.fst).dedup).insertionSort (· ≤ ·)).Nodup :=
        (List.perm_insertionSort _ _).nodup_iff.mpr (List.nodup_dedup _)
      exact (hsorted.and hnodup).imp (fun h => lt_of_le_of_ne h.1 h.2)
    · intro k ps hmem
      rw [build_hoi_interaction_list] at hmem
      rcases List.mem_map.mp hmem with ⟨k2, _, heq⟩
      obtain ⟨hk, hps⟩ := Prod.mk.injEq _ _ _ _ ▸ heq
      subst hk
      exact hps.symm
    · intro k
      constructor
      · rintro ⟨ps, hmem⟩
        rw [build_hoi_interaction_list] at hmem
        rcases List.mem_map.mp hmem with ⟨k2, hk2, heq⟩
        obtain ⟨hk, _⟩ := Prod.mk.injEq _ _ _ _ ▸ heq
        subst hk
        exact (List.mem_dedup).mp
          ((List.perm_insertionSort _ _).mem_iff.mp hk2)
      · intro hmem
        refine ⟨(rows.filter (fun r => decide (r.1 = k))).map Prod.snd, ?_⟩
        rw [build_hoi_interaction_list]
        exact List.mem_map.mpr ⟨k,
          (List.perm_insertionSort _ _).mem_iff.mpr
            ((List.mem_dedup).mpr hmem), rfl⟩

/-- C7 witness: the heart-rate load of two unsorted samples yields
strictly increasing keys, and a grouped three-record interaction input
with a repeated timestamp yields strictly increasing keys. -/

theorem timestamp_keys_strictly_increasing_witness :
    List.Pairwise (· < ·)
      (([(1, HeartRateData.mk 1 72), (3, HeartRateData.mk 3 68)] :
          List (Int × HeartRateData)).map Prod.fst) ∧
    List.Pairwise (· < ·)
      ((build_hoi_interaction_list
          ([(5, HandObjectInteractionDataRaw.mk 5 5 1 [] [] "" 1),
            (3, HandObjectInteractionDataRaw.mk 3 3 2 [] [] "" 1),
            (5, HandObjectInteractionDataRaw.mk 5 5 3 [] [] "" 1)] :
            List (Int × HandObjectInteractionDataRaw))).map Prod.fst) :=
  ⟨timestamp_keys_strictly_increasing.1
      [(3, HeartRateData.mk 3 68), (1, HeartRateData.mk 1 72)]
      [(1, HeartRateData.mk 1 72), (3, HeartRateData.mk 3 68)] (by rfl),
   (timestamp_keys_strictly_increasing.2
      [(5, HandObjectInteractionDataRaw.mk 5 5 1 [] [] "" 1),
       (3, HandObjectInteractionDataRaw.mk 3 3 2 [] [] "" 1),
       (5, HandObjectInteractionDataRaw.mk 5 5 3 [] [] "" 1)]).1⟩

/-- C9: for both index-keyed getters, an index inside `[0, n)` returns the
stored entry at that position and any index outside `[0, n)` (negative
included) returns `None` without failing. -/

theorem get_by_index_bounds (hrList : List (Int × HeartRateData))
    (hoiList : List (Int × List HandObjectInteractionDataRaw))
    (β : Type) (convert : List HandObjectInteractionDataRaw → β)
    (index : Int) :
    (∀ h2 : index.toNat < hrList.length, 0 ≤ index →
        get_heart_rate_by_index hrList index
          = some (hrList.get ⟨index.toNat, h2⟩).2) ∧
    ((index < 0 ∨ (hrList.length : Int) ≤ index) →
        get_heart_rate_by_index hrList index = none) ∧
    (∀ h2 : index.toNat < hoiList.length, 0 ≤ index →
        get_hoi_data_by_index convert hoiList index
          = some (convert (hoiList.get ⟨index.toNat, h2⟩).2)) ∧
    ((index < 0 ∨ (hoiList.length : Int) ≤ index) →
        get_hoi_data_by_index convert hoiList index = none) := by
  refine ⟨?_, ?_, ?_, ?_⟩
  · intro h2 h1
    rw [get_heart_rate_by_index, if_pos ⟨h1, by omega⟩,
      List.get?_eq_get h2]
    rfl
  · intro hout
    rw [get_heart_rate_by_index, if_neg]
    omega
  · intro h2 h1
    rw [get_hoi_data_by_index, if_pos ⟨h1, by omega⟩,
      List.get?_eq_get h2]
    rfl
  · intro hout
    rw [get_hoi_data_by_index, if_neg]
    omega

/-- C9 witness: index 0 of a one-entry provider returns the entry, index
-1 returns `None`, and index 2 of a one-entry interaction provider
returns `None`. -/

theorem get_by_index_bounds_witness :
    get_heart_rate_by_index [(1, HeartRateData.mk 1 72)] 0
      = some (HeartRateData.mk 1 72) ∧
    get_heart_rate_by_index [(1, HeartRateData.mk 1 72)] (-1) = none ∧
    get_hoi_data_by_index List.length [(1, [])] 2 = none :=
  ⟨(get_by_index_bounds [(1, HeartRateData.mk 1 72)] [(1, [])]
      Nat List.length 0).1 (by decide) (by decide),
   (get_by_index_bounds [(1, HeartRateData.mk 1 72)] [(1, [])]
      Nat List.length (-1)).2.1 (Or.inl (by decide)),
   (get_by_index_bounds [(1, HeartRateData.mk 1 72)] [(1, [])]
      Nat List.length 2).2.2.2 (Or.inr (by decide))⟩

/-- C10: a missing interaction file or an empty annotation array loads
successfully into an empty provider: `has_hoi_data` is false, the total
is zero, and every index or timestamp query returns `None`. -/

theorem hoi_missing_or_empty_is_benign :
    hoi_load_data .missingFile = .ok [] ∧
    hoi_load_data (.parsed []) = .ok [] ∧
    has_hoi_data [] = false ∧
    get_hoi_total_number [] = 0 ∧
    (∀ (β : Type) (convert : List HandObjectInteractionDataRaw → β)
        (i : Int), get_hoi_data_by_index convert [] i = none) ∧
    (∀ (β : Type) (convert : List HandObjectInteractionDataRaw → β)
        (t : Int) (opt : TimeQueryOptions),
        get_hoi_data_by_timestamp_ns convert [] t opt = none) := by
  refine ⟨rfl, rfl, rfl, rfl, ?_, ?_⟩
  · intro β convert i
    rw [get_hoi_data_by_index, if_neg]
    simp
  · intro β convert t opt
    cases opt <;> rfl

end AriaGen2
